import Mathlib

/-!
Verification of the `combine` parser-combinator library (single file
`src/lib.rs`).  The data model — `SourcePosition`, `Error`, `ParseError`,
`State` — and every primitive and combinator the claims touch are
translated as executable Lean definitions.  Character streams are
modelled as `List Char` (the `&str` stream instance: `uncons` yields the
head character and the tail).  Rust's `ParseResult<O, I>` becomes
`Except ParseError (O × State)`; the unbounded repetition loops of
`many_append` take an explicit fuel argument, `none` standing for a run
of the Rust loop that has not yet terminated within that much fuel.
-/

namespace Combine

/-- `SourcePosition` from the source: 1-based line and column counters.
Modelled with `Int` for the Rust `i32` fields. -/
structure SourcePosition where
  line : Int
  column : Int
deriving DecidableEq

/-- `SourcePosition::start`. -/
def SourcePosition.start : SourcePosition := ⟨1, 1⟩

/-- Two's-complement wrap of an integer into the `i32` range
`[-2^31, 2^31)`: the value of Rust's wrapping `i32` addition in release
builds (debug builds panic at the same inputs, so there too the
increment does not produce a larger in-range value). -/
def wrap32 (n : Int) : Int :=
  (n + 2147483648) % 4294967296 - 2147483648

/-- `SourcePosition::update`: the `i32` column is incremented (wrapping),
then on a newline the column resets to 1 and the `i32` line is
incremented (wrapping). -/
def SourcePosition.update (p : SourcePosition) (c : Char) : SourcePosition :=
  let p1 : SourcePosition := ⟨p.line, wrap32 (p.column + 1)⟩
  if c = '\n' then ⟨wrap32 (p1.line + 1), 1⟩ else p1

/-- The `Error` enum: the three error-reason kinds. -/
inductive Error where
  | unexpected : Char → Error
  | expected : String → Error
  | message : String → Error
deriving DecidableEq

/-- `ParseError`: a position plus the accumulated list of reasons. -/
structure ParseError where
  position : SourcePosition
  errors : List Error
deriving DecidableEq

/-- `ParseError::new`. -/
def ParseError.new (position : SourcePosition) (e : Error) : ParseError :=
  ⟨position, [e]⟩

/-- `ParseError::add_error`: push the reason unless an equal one is present. -/
def ParseError.add_error (pe : ParseError) (e : Error) : ParseError :=
  if e ∈ pe.errors then pe else ⟨pe.position, pe.errors ++ [e]⟩

/-- `ParseError::add_message`. -/
def ParseError.add_message (pe : ParseError) (m : String) : ParseError :=
  pe.add_error (.message m)

/-- `ParseError::merge`: fold the right operand's reasons into the left
via `add_error`. -/
def ParseError.merge (pe other : ParseError) : ParseError :=
  other.errors.foldl ParseError.add_error pe

/-- `State`: current position plus remaining input (a character stream). -/
structure State where
  position : SourcePosition
  input : List Char
deriving DecidableEq

/-- `ParseResult<O, I>` for the character-stream instantiation. -/
abbrev ParseResult (α : Type) := Except ParseError (α × State)

/-- A parser is its `parse` function (`Parser::parse`). -/
abbrev Parser (α : Type) := State → ParseResult α

/-- `State::uncons` with an explicit position-update function. -/
def State.uncons (s : State) (f : SourcePosition → Char → SourcePosition) :
    ParseResult Char :=
  match s.input with
  | [] => .error (ParseError.new s.position (.message ("End of input")))
  | c :: rest => .ok (c, ⟨f s.position c, rest⟩)

/-- `State::uncons_char`: uncons with the character position rule. -/
def State.uncons_char (s : State) : ParseResult Char :=
  s.uncons SourcePosition.update

/-- The free function `char`: parses any character. -/
def char : Parser Char := fun input => input.uncons_char

/-- `Satisfy::parse`: try to consume one character from a clone of the
state; succeed when the predicate holds, otherwise report `Unexpected`
at the pre-consume position. -/
def satisfy (pred : Char → Bool) : Parser Char := fun input =>
  match input.uncons_char with
  | .ok (c, s) =>
      if pred c then .ok (c, s)
      else .error (ParseError.new input.position (.unexpected c))
  | .error err => .error err

/-- `space()`: `satisfy(is_whitespace)`. -/
def space : Parser Char := satisfy Char.isWhitespace

/-- `digit`: consume one character, succeed when it is a decimal digit,
otherwise fail at the pre-consume position. -/
def digit : Parser Char := fun input =>
  match input.uncons_char with
  | .ok (c, rest) =>
      if c.isDigit then .ok (c, rest)
      else .error (ParseError.new input.position (.message ("Expected digit")))
  | .error err => .error err

/-- The character loop of `StringP::parse`: match each pattern character
against the stream in order. -/
def stringLoop (s : String) : List Char → State → Except ParseError State
  | [], input => .ok input
  | c :: cs, input =>
    match input.uncons_char with
    | .ok (other, rest) =>
        if c ≠ other then
          .error (ParseError.new input.position (.expected s))
        else stringLoop s cs rest
    | .error err => .error err

/-- `StringP::parse`: run the character loop over `s`, returning `s`
itself as the parsed value. -/
def string (s : String) : Parser String := fun input =>
  match stringLoop s s.data input with
  | .ok rest => .ok (s, rest)
  | .error err => .error err

/-- `And::parse`: run the first parser, then the second on its rest. -/
def and {α β : Type} (p : Parser α) (q : Parser β) : Parser (α × β) :=
  fun input =>
  match p input with
  | .error err => .error err
  | .ok (a, rest) =>
    match q rest with
    | .error err => .error err
    | .ok (b, rest2) => .ok ((a, b), rest2)

/-- `With::parse`: sequence and keep the second value. -/
def withP {α β : Type} (p : Parser α) (q : Parser β) : Parser β :=
  fun input =>
  match and p q input with
  | .error err => .error err
  | .ok ((_, b), rest) => .ok (b, rest)

/-- `Skip::parse`: sequence and keep the first value. -/
def skip {α β : Type} (p : Parser α) (q : Parser β) : Parser α :=
  fun input =>
  match and p q input with
  | .error err => .error err
  | .ok ((a, _), rest) => .ok (a, rest)

/-- `between(open, close, parser) = open.with(parser).skip(close)`. -/
def between {α β γ : Type} (o : Parser α) (c : Parser β) (b : Parser γ) :
    Parser γ :=
  withP o (skip b c)

/-- `Optional::parse`: on failure of the inner parser return `none` with
the original state. -/
def optional {α : Type} (p : Parser α) : Parser (Option α) := fun input =>
  match p input with
  | .ok (x, rest) => .ok (some x, rest)
  | .error _ => .ok (none, input)

/-- `Or::parse`: try the first parser on a clone; on failure try the
second on the original state; when both fail, merge the errors. -/
def or {α : Type} (p q : Parser α) : Parser α := fun input =>
  match p input with
  | .ok r => .ok r
  | .error e1 =>
    match q input with
    | .ok r => .ok r
    | .error e2 => .error (e1.merge e2)

/-- `Map::parse`: apply the function to a successful value. -/
def map {α β : Type} (p : Parser α) (f : α → β) : Parser β := fun input =>
  match p input with
  | .ok (x, rest) => .ok (f x, rest)
  | .error err => .error err

/-- `Message::parse`: on failure append the label to the error. -/
def message {α : Type} (p : Parser α) (msg : String) : Parser α :=
  fun input =>
  match p input with
  | .ok x => .ok x
  | .error err => .error (err.add_message msg)

/-- `ManyAppend::parse`: repeat the parser, appending each result to the
buffer, until it fails; return the buffer with the state at which the
last attempt failed.  `fuel` bounds the number of loop iterations;
`none` means the Rust loop would still be running after that many
iterations. -/
def many_append {α : Type} (p : Parser α) :
    Nat → State → List α → Option (ParseResult (List α))
  | 0, _, _ => none
  | fuel + 1, input, vec =>
    match p input with
    | .ok (x, rest) => many_append p fuel rest (vec ++ [x])
    | .error _ => some (.ok (vec, input))

/-- `Many::parse`: `many_append` into a fresh buffer. -/
def many {α : Type} (p : Parser α) (fuel : Nat) :
    State → Option (ParseResult (List α)) := fun input =>
  match many_append p fuel input [] with
  | none => none
  | some (.error err) => some (.error err)
  | some (.ok (result, rest)) => some (.ok (result, rest))

/-- `Many1::parse`: the parser once, then `many_append`. -/
def many1 {α : Type} (p : Parser α) (fuel : Nat) :
    State → Option (ParseResult (List α)) := fun input =>
  match p input with
  | .error err => some (.error err)
  | .ok (first, rest) =>
    match many_append p fuel rest [first] with
    | none => none
    | some (.error err) => some (.error err)
    | some (.ok (result, rest2)) => some (.ok (result, rest2))

/-- `SepBy::parse`: attempt the element parser once; on failure succeed
with the empty list and the original state; on success loop the composed
`separator.with(parser)` via `many_append`. -/
def sep_by {α β : Type} (p : Parser α) (sep : Parser β) (fuel : Nat) :
    State → Option (ParseResult (List α)) := fun input =>
  match p input with
  | .error _ => some (.ok ([], input))
  | .ok (x, rest) =>
    match many_append (withP sep p) fuel rest [x] with
    | none => none
    | some (.error err) => some (.error err)
    | some (.ok (result, rest2)) => some (.ok (result, rest2))

/-!
Syntax of parsers built from the library's primitives and combinators,
with a fueled interpreter.  This is used for the claims that quantify
over "every parser built from the library": each constructor's
interpretation is the corresponding `parse` implementation above, and
`none` stands for a run of the Rust code that has not terminated within
the given fuel.
-/

/-- Parser trees assembled from the library's primitives and
combinators, indexed by output type. -/
inductive PSyn : Type → Type 1 where
  | anyChar : PSyn Char
  | satisfyP : (Char → Bool) → PSyn Char
  | digitP : PSyn Char
  | stringP : String → PSyn String
  | andP : {α β : Type} → PSyn α → PSyn β → PSyn (α × β)
  | withQ : {α β : Type} → PSyn α → PSyn β → PSyn β
  | skipP : {α β : Type} → PSyn α → PSyn β → PSyn α
  | orP : {α : Type} → PSyn α → PSyn α → PSyn α
  | optionalP : {α : Type} → PSyn α → PSyn (Option α)
  | manyP : {α : Type} → PSyn α → PSyn (List α)
  | many1P : {α : Type} → PSyn α → PSyn (List α)
  | sepByP : {α β : Type} → PSyn α → PSyn β → PSyn (List α)
  | mapP : {α β : Type} → PSyn α → (α → β) → PSyn β
  | messageP : {α : Type} → PSyn α → String → PSyn α

/-- The `ManyAppend` loop over a fueled body. -/
def iterMany {α : Type} (body : State → Option (ParseResult α)) :
    Nat → State → List α → Option (List α × State)
  | 0, _, _ => none
  | fuel + 1, input, vec =>
    match body input with
    | none => none
    | some (.error _) => some (vec, input)
    | some (.ok (x, rest)) => iterMany body fuel rest (vec ++ [x])

/-- Fueled interpreter for parser trees: each case is the `parse`
implementation of the corresponding Rust combinator. -/
def runF : Nat → {α : Type} → PSyn α → State → Option (ParseResult α)
  | 0 => fun _ _ => none
  | fuel + 1 => fun e input =>
    match e with
    | .anyChar => some (char input)
    | .satisfyP pred => some (satisfy pred input)
    | .digitP => some (digit input)
    | .stringP s => some (string s input)
    | .andP p q =>
      match runF fuel p input with
      | none => none
      | some (.error err) => some (.error err)
      | some (.ok (a, rest)) =>
        match runF fuel q rest with
        | none => none
        | some (.error err) => some (.error err)
        | some (.ok (b, rest2)) => some (.ok ((a, b), rest2))
    | .withQ p q =>
      match runF fuel (.andP p q) input with
      | none => none
      | some (.error err) => some (.error err)
      | some (.ok ((_, b), rest)) => some (.ok (b, rest))
    | .skipP p q =>
      match runF fuel (.andP p q) input with
      | none => none
      | some (.error err) => some (.error err)
      | some (.ok ((a, _), rest)) => some (.ok (a, rest))
    | .orP p q =>
      match runF fuel p input with
      | none => none
      | some (.ok r) => some (.ok r)
      | some (.error e1) =>
        match runF fuel q input with
        | none => none
        | some (.ok r) => some (.ok r)
        | some (.error e2) => some (.error (e1.merge e2))
    | .optionalP p =>
      match runF fuel p input with
      | none => none
      | some (.ok (x, rest)) => some (.ok (some x, rest))
      | some (.error _) => some (.ok (none, input))
    | .manyP p =>
      match iterMany (runF fuel p) fuel input [] with
      | none => none
      | some (result, rest) => some (.ok (result, rest))
    | .many1P p =>
      match runF fuel p input with
      | none => none
      | some (.error err) => some (.error err)
      | some (.ok (first, rest)) =>
        match iterMany (runF fuel p) fuel rest [first] with
        | none => none
        | some (result, rest2) => some (.ok (result, rest2))
    | .sepByP p sep =>
      match runF fuel p input with
      | none => none
      | some (.error _) => some (.ok ([], input))
      | some (.ok (x, rest)) =>
        match iterMany (runF fuel (.withQ sep p)) fuel rest [x] with
        | none => none
        | some (result, rest2) => some (.ok (result, rest2))
    | .mapP p f =>
      match runF fuel p input with
      | none => none
      | some (.error err) => some (.error err)
      | some (.ok (x, rest)) => some (.ok (f x, rest))
    | .messageP p msg =>
      match runF fuel p input with
      | none => none
      | some (.ok x) => some (.ok x)
      | some (.error err) => some (.error (err.add_message msg))

/-!  Position ordering and the state-advance invariant.  -/

/-- The canonical ordering on positions: line first, then column. -/
def posLe (a b : SourcePosition) : Prop :=
  a.line < b.line ∨ (a.line = b.line ∧ a.column ≤ b.column)

/-- Strict version of `posLe`. -/
def posLt (a b : SourcePosition) : Prop :=
  a.line < b.line ∨ (a.line = b.line ∧ a.column < b.column)

/-- The position's `i32` counters are at least 1 and far enough from
`2^31` that consuming the whole remaining input cannot overflow them
(each consumed character increments the column or the line by one). -/
def PosInRange (st : State) : Prop :=
  1 ≤ st.position.line ∧ 1 ≤ st.position.column ∧
    st.position.line + (st.input.length : Int) < 2147483648 ∧
    st.position.column + (st.input.length : Int) < 2147483648

/-- Relation between the incoming and outgoing states of a successful
parse: the remaining input is a suffix of the original and, whenever
the incoming position has room for the remaining input, the position is
monotone (strictly when input was consumed) and the outgoing state
again has room. -/
def Advances (s t : State) : Prop :=
  t.input.IsSuffix s.input ∧
    (PosInRange s →
      posLe s.position t.position ∧ PosInRange t ∧
        (t.input.length < s.input.length → posLt s.position t.position))

theorem posLe_refl (a : SourcePosition) : posLe a a := by
  unfold posLe; omega

theorem posLe_trans {a b c : SourcePosition} (h1 : posLe a b)
    (h2 : posLe b c) : posLe a c := by
  unfold posLe at *; omega

theorem posLt_of_le_of_lt {a b c : SourcePosition} (h1 : posLe a b)
    (h2 : posLt b c) : posLt a c := by
  unfold posLe at h1; unfold posLt at *; omega

theorem posLt_of_lt_of_le {a b c : SourcePosition} (h1 : posLt a b)
    (h2 : posLe b c) : posLt a c := by
  unfold posLe at h2; unfold posLt at *; omega

theorem posLe_of_posLt {a b : SourcePosition} (h : posLt a b) :
    posLe a b := by
  unfold posLt at h; unfold posLe; omega

theorem advances_refl (s : State) : Advances s s :=
  ⟨List.suffix_refl _,
   fun hwf => ⟨posLe_refl _, hwf, fun h => absurd h (by omega)⟩⟩

theorem advances_trans {s t u : State} (h1 : Advances s t)
    (h2 : Advances t u) : Advances s u := by
  obtain ⟨suf1, hw1⟩ := h1
  obtain ⟨suf2, hw2⟩ := h2
  refine ⟨suf2.trans suf1, fun hwf => ?_⟩
  obtain ⟨le1, hr1, lt1⟩ := hw1 hwf
  obtain ⟨le2, hr2, lt2⟩ := hw2 hr1
  refine ⟨posLe_trans le1 le2, hr2, fun hlen => ?_⟩
  have l1 : t.input.length ≤ s.input.length := suf1.length_le
  have l2 : u.input.length ≤ t.input.length := suf2.length_le
  rcases Nat.lt_or_ge u.input.length t.input.length with h | h
  · exact posLt_of_le_of_lt le1 (lt2 h)
  · exact posLt_of_lt_of_le (lt1 (by omega)) le2

theorem wrap32_eq {n : Int} (h1 : -2147483648 ≤ n) (h2 : n < 2147483648) :
    wrap32 n = n := by
  unfold wrap32; omega

/-- From a state whose position has room for its input, the character
position rule strictly increases the position and keeps it in range for
the remaining input. -/
theorem update_advances {s : State} {ch : Char} {rest : List Char}
    (hin : s.input = ch :: rest) (hwf : PosInRange s) :
    posLt s.position (s.position.update ch) ∧
      PosInRange ⟨s.position.update ch, rest⟩ := by
  obtain ⟨h1, h2, h3, h4⟩ := hwf
  rw [hin] at h3 h4
  simp only [List.length_cons] at h3 h4
  have hc : wrap32 (s.position.column + 1) = s.position.column + 1 :=
    wrap32_eq (by omega) (by omega)
  have hl : wrap32 (s.position.line + 1) = s.position.line + 1 :=
    wrap32_eq (by omega) (by omega)
  unfold SourcePosition.update posLt PosInRange
  dsimp only
  split
  · rw [hl]; dsimp only; omega
  · rw [hc]; dsimp only; omega

/-- Successful `uncons_char` pops the head and applies the position rule. -/
theorem uncons_char_ok {s : State} {c : Char} {t : State}
    (h : s.uncons_char = .ok (c, t)) :
    s.input = c :: t.input ∧ t.position = s.position.update c := by
  unfold State.uncons_char State.uncons at h
  cases hs : s.input with
  | nil => rw [hs] at h; exact absurd h (by simp)
  | cons c' rest =>
    rw [hs] at h
    cases h
    exact ⟨rfl, rfl⟩

/-- Successful `uncons_char` strictly advances the state. -/
theorem uncons_char_advances {s : State} {c : Char} {t : State}
    (h : s.uncons_char = .ok (c, t)) :
    Advances s t ∧ t.input.length < s.input.length := by
  obtain ⟨tpos, tin⟩ := t
  obtain ⟨hin, hpos⟩ := uncons_char_ok h
  dsimp only at hin hpos
  subst hpos
  have hlen : tin.length < s.input.length := by rw [hin]; simp
  refine ⟨⟨⟨[c], hin.symm⟩, fun hwf => ?_⟩, hlen⟩
  obtain ⟨hlt, hr⟩ := update_advances hin hwf
  exact ⟨posLe_of_posLt hlt, hr, fun _ => hlt⟩

/-- A successful `satisfy` is a successful `uncons_char`. -/
theorem satisfy_ok {pred : Char → Bool} {s : State} {c : Char} {t : State}
    (h : satisfy pred s = .ok (c, t)) : s.uncons_char = .ok (c, t) := by
  cases hu : s.uncons_char with
  | error e => simp [satisfy, hu] at h
  | ok ct =>
    obtain ⟨c', t'⟩ := ct
    simp only [satisfy, hu] at h
    split at h
    · simp only [Except.ok.injEq, Prod.mk.injEq] at h
      obtain ⟨rfl, rfl⟩ := h
      rfl
    · simp at h

/-- A successful `digit` is a successful `uncons_char`. -/
theorem digit_ok {s : State} {c : Char} {t : State}
    (h : digit s = .ok (c, t)) : s.uncons_char = .ok (c, t) := by
  cases hu : s.uncons_char with
  | error e => simp [digit, hu] at h
  | ok ct =>
    obtain ⟨c', t'⟩ := ct
    simp only [digit, hu] at h
    split at h
    · simp only [Except.ok.injEq, Prod.mk.injEq] at h
      obtain ⟨rfl, rfl⟩ := h
      rfl
    · simp at h

/-- The `StringP` character loop only moves the state forward. -/
theorem stringLoop_advances {s : String} :
    ∀ (cs : List Char) (st st' : State),
      stringLoop s cs st = .ok st' → Advances st st'
  | [], st, st', h => by
      simp only [stringLoop, Except.ok.injEq] at h
      exact h ▸ advances_refl _
  | c :: cs, st, st', h => by
      cases hu : st.uncons_char with
      | error e => simp [stringLoop, hu] at h
      | ok ct =>
        obtain ⟨other, rest⟩ := ct
        simp only [stringLoop, hu] at h
        split at h
        · simp at h
        · exact advances_trans (uncons_char_advances hu).1
            (stringLoop_advances cs rest st' h)

/-- A successful `string` only moves the state forward. -/
theorem string_advances {s : String} {st : State} {v : String} {st' : State}
    (h : string s st = .ok (v, st')) : Advances st st' := by
  cases hl : stringLoop s s.data st with
  | error e => simp [string, hl] at h
  | ok rest =>
    simp only [string, hl, Except.ok.injEq, Prod.mk.injEq] at h
    obtain ⟨rfl, rfl⟩ := h
    exact stringLoop_advances s.data st rest hl

/-- The fueled `ManyAppend` loop only moves the state forward when its
body does. -/
theorem iterMany_advances {α : Type} {body : State → Option (ParseResult α)}
    (hbody : ∀ st x st', body st = some (.ok (x, st')) → Advances st st') :
    ∀ (fuel : Nat) (st : State) (acc res : List α) (st' : State),
      iterMany body fuel st acc = some (res, st') → Advances st st'
  | 0, st, acc, res, st', h => by simp [iterMany] at h
  | fuel + 1, st, acc, res, st', h => by
      cases hb : body st with
      | none => simp [iterMany, hb] at h
      | some r =>
        cases r with
        | error e =>
          simp [iterMany, hb] at h
          rcases h with ⟨rfl, rfl⟩
          exact advances_refl _
        | ok xr =>
          obtain ⟨x, rest⟩ := xr
          simp only [iterMany, hb] at h
          exact advances_trans (hbody st x rest hb)
            (iterMany_advances hbody fuel rest (acc ++ [x]) res st' h)

/-- Every successful run of a parser built from the library's
primitives and combinators only moves the state forward. -/
theorem runF_advances :
    ∀ (fuel : Nat) {α : Type} (e : PSyn α) (st : State) (v : α) (st' : State),
      runF fuel e st = some (.ok (v, st')) → Advances st st' := by
  intro fuel
  induction fuel with
  | zero => intro α e st v st' h; simp [runF] at h
  | succ fuel ih =>
    intro α e st v st' h
    cases e with
    | anyChar =>
      simp only [runF, Option.some.injEq] at h
      exact (uncons_char_advances h).1
    | satisfyP pred =>
      simp only [runF, Option.some.injEq] at h
      exact (uncons_char_advances (satisfy_ok h)).1
    | digitP =>
      simp only [runF, Option.some.injEq] at h
      exact (uncons_char_advances (digit_ok h)).1
    | stringP s =>
      simp only [runF, Option.some.injEq] at h
      exact string_advances h
    | andP p q =>
      simp only [runF] at h
      cases h1 : runF fuel p st with
      | none => simp [h1] at h
      | some r1 =>
        simp only [h1] at h
        cases r1 with
        | error e1 => simp at h
        | ok ar =>
          obtain ⟨a, rest⟩ := ar
          cases h2 : runF fuel q rest with
          | none => simp [h2] at h
          | some r2 =>
            simp only [h2] at h
            cases r2 with
            | error e2 => simp at h
            | ok br =>
              obtain ⟨b, rest2⟩ := br
              simp only [Option.some.injEq, Except.ok.injEq,
                Prod.mk.injEq] at h
              obtain ⟨-, rfl⟩ := h
              exact advances_trans (ih p st a rest h1) (ih q rest b rest2 h2)
    | withQ p q =>
      simp only [runF] at h
      cases h1 : runF fuel (.andP p q) st with
      | none => simp [h1] at h
      | some r1 =>
        simp only [h1] at h
        cases r1 with
        | error e1 => simp at h
        | ok ar =>
          obtain ⟨⟨a, b⟩, rest⟩ := ar
          simp only [Option.some.injEq, Except.ok.injEq, Prod.mk.injEq] at h
          obtain ⟨-, rfl⟩ := h
          exact ih (.andP p q) st (a, b) rest h1
    | skipP p q =>
      simp only [runF] at h
      cases h1 : runF fuel (.andP p q) st with
      | none => simp [h1] at h
      | some r1 =>
        simp only [h1] at h
        cases r1 with
        | error e1 => simp at h
        | ok ar =>
          obtain ⟨⟨a, b⟩, rest⟩ := ar
          simp only [Option.some.injEq, Except.ok.injEq, Prod.mk.injEq] at h
          obtain ⟨-, rfl⟩ := h
          exact ih (.andP p q) st (a, b) rest h1
    | orP p q =>
      simp only [runF] at h
      cases h1 : runF fuel p st with
      | none => simp [h1] at h
      | some r1 =>
        simp only [h1] at h
        cases r1 with
        | ok r =>
          obtain ⟨rv, rs⟩ := r
          simp only [Option.some.injEq, Except.ok.injEq, Prod.mk.injEq] at h
          obtain ⟨rfl, rfl⟩ := h
          exact ih p st rv rs h1
        | error e1 =>
          cases h2 : runF fuel q st with
          | none => simp [h2] at h
          | some r2 =>
            simp only [h2] at h
            cases r2 with
            | error e2 => simp at h
            | ok r =>
              obtain ⟨rv, rs⟩ := r
              simp only [Option.some.injEq, Except.ok.injEq,
                Prod.mk.injEq] at h
              obtain ⟨rfl, rfl⟩ := h
              exact ih q st rv rs h2
    | optionalP p =>
      simp only [runF] at h
      cases h1 : runF fuel p st with
      | none => simp [h1] at h
      | some r1 =>
        simp only [h1] at h
        cases r1 with
        | error e1 =>
          simp only [Option.some.injEq, Except.ok.injEq, Prod.mk.injEq] at h
          obtain ⟨-, rfl⟩ := h
          exact advances_refl st
        | ok r =>
          obtain ⟨rv, rs⟩ := r
          simp only [Option.some.injEq, Except.ok.injEq, Prod.mk.injEq] at h
          obtain ⟨-, rfl⟩ := h
          exact ih p st rv rs h1
    | manyP p =>
      simp only [runF] at h
      cases h1 : iterMany (runF fuel p) fuel st [] with
      | none => simp [h1] at h
      | some r1 =>
        obtain ⟨result, rest⟩ := r1
        simp only [h1, Option.some.injEq, Except.ok.injEq,
          Prod.mk.injEq] at h
        obtain ⟨-, rfl⟩ := h
        exact iterMany_advances (fun a b c hh => ih p a b c hh)
          fuel st [] result rest h1
    | many1P p =>
      simp only [runF] at h
      cases h1 : runF fuel p st with
      | none => simp [h1] at h
      | some r1 =>
        simp only [h1] at h
        cases r1 with
        | error e1 => simp at h
        | ok fr =>
          obtain ⟨first, rest⟩ := fr
          cases h2 : iterMany (runF fuel p) fuel rest [first] with
          | none => simp [h2] at h
          | some r2 =>
            obtain ⟨result, rest2⟩ := r2
            simp only [h2, Option.some.injEq, Except.ok.injEq,
              Prod.mk.injEq] at h
            obtain ⟨-, rfl⟩ := h
            exact advances_trans (ih p st first rest h1)
              (iterMany_advances (fun a b c hh => ih p a b c hh)
                fuel rest [first] result rest2 h2)
    | sepByP p sep =>
      simp only [runF] at h
      cases h1 : runF fuel p st with
      | none => simp [h1] at h
      | some r1 =>
        simp only [h1] at h
        cases r1 with
        | error e1 =>
          simp only [Option.some.injEq, Except.ok.injEq, Prod.mk.injEq] at h
          obtain ⟨-, rfl⟩ := h
          exact advances_refl st
        | ok fr =>
          obtain ⟨first, rest⟩ := fr
          cases h2 : iterMany (runF fuel (.withQ sep p)) fuel rest [first] with
          | none => simp [h2] at h
          | some r2 =>
            obtain ⟨result, rest2⟩ := r2
            simp only [h2, Option.some.injEq, Except.ok.injEq,
              Prod.mk.injEq] at h
            obtain ⟨-, rfl⟩ := h
            exact advances_trans (ih p st first rest h1)
              (iterMany_advances (fun a b c hh => ih (.withQ sep p) a b c hh)
                fuel rest [first] result rest2 h2)
    | mapP p f =>
      simp only [runF] at h
      cases h1 : runF fuel p st with
      | none => simp [h1] at h
      | some r1 =>
        simp only [h1] at h
        cases r1 with
        | error e1 => simp at h
        | ok r =>
          obtain ⟨rv, rs⟩ := r
          simp only [Option.some.injEq, Except.ok.injEq, Prod.mk.injEq] at h
          obtain ⟨-, rfl⟩ := h
          exact ih p st rv rs h1
    | messageP p msg =>
      simp only [runF] at h
      cases h1 : runF fuel p st with
      | none => simp [h1] at h
      | some r1 =>
        simp only [h1] at h
        cases r1 with
        | error e1 => simp at h
        | ok r =>
          obtain ⟨rv, rs⟩ := r
          simp only [Option.some.injEq, Except.ok.injEq, Prod.mk.injEq] at h
          obtain ⟨rfl, rfl⟩ := h
          exact ih p st rv rs h1

/-!  `ParseError` bookkeeping lemmas.  -/

theorem add_error_position (pe : ParseError) (e : Error) :
    (pe.add_error e).position = pe.position := by
  unfold ParseError.add_error; split <;> rfl

theorem add_error_of_mem {pe : ParseError} {e : Error} (h : e ∈ pe.errors) :
    pe.add_error e = pe := by
  unfold ParseError.add_error; rw [if_pos h]

theorem mem_add_error {x : Error} (pe : ParseError) (e : Error) :
    x ∈ (pe.add_error e).errors ↔ x ∈ pe.errors ∨ x = e := by
  unfold ParseError.add_error
  split
  · next hmem =>
      constructor
      · exact Or.inl
      · rintro (hx | rfl)
        · exact hx
        · exact hmem
  · simp

theorem add_error_nodup {pe : ParseError} (h : pe.errors.Nodup) (e : Error) :
    (pe.add_error e).errors.Nodup := by
  unfold ParseError.add_error
  split
  · exact h
  · next hmem => simp [List.nodup_append, h, hmem]

theorem foldl_add_error_position :
    ∀ (l : List Error) (pe : ParseError),
      (l.foldl ParseError.add_error pe).position = pe.position
  | [], _ => rfl
  | e :: l, pe => by
      simp only [List.foldl_cons]
      rw [foldl_add_error_position l (pe.add_error e), add_error_position]

theorem mem_foldl_add_error {x : Error} :
    ∀ (l : List Error) (pe : ParseError),
      x ∈ (l.foldl ParseError.add_error pe).errors ↔ x ∈ pe.errors ∨ x ∈ l
  | [], pe => by simp
  | e :: l, pe => by
      simp only [List.foldl_cons, mem_foldl_add_error l, mem_add_error,
        List.mem_cons]
      tauto

theorem foldl_add_error_nodup :
    ∀ (l : List Error) {pe : ParseError}, pe.errors.Nodup →
      (l.foldl ParseError.add_error pe).errors.Nodup
  | [], _, h => h
  | e :: l, _, h => foldl_add_error_nodup l (add_error_nodup h e)

theorem foldl_add_error_eq :
    ∀ (l : List Error) (pe : ParseError), l.Nodup →
      (l.foldl ParseError.add_error pe).errors
        = pe.errors ++ l.filter fun x => decide (¬ x ∈ pe.errors)
  | [], pe, _ => by simp
  | e :: l, pe, h => by
      obtain ⟨he, hl⟩ := List.nodup_cons.mp h
      by_cases hmem : e ∈ pe.errors
      · have hid : pe.add_error e = pe := add_error_of_mem hmem
        rw [List.foldl_cons, hid, foldl_add_error_eq l pe hl,
          List.filter_cons]
        simp [hmem]
      · have hadd : pe.add_error e = ⟨pe.position, pe.errors ++ [e]⟩ := by
          unfold ParseError.add_error; rw [if_neg hmem]
        rw [List.foldl_cons, hadd,
          foldl_add_error_eq l ⟨pe.position, pe.errors ++ [e]⟩ hl,
          List.filter_cons]
        have hfc :
            (l.filter fun x =>
                decide (¬ x ∈ (⟨pe.position, pe.errors ++ [e]⟩ :
                  ParseError).errors))
              = l.filter fun x => decide (¬ x ∈ pe.errors) := by
          apply List.filter_congr
          intro x hx
          have hne : x ≠ e := fun hxe => he (hxe ▸ hx)
          simp [List.mem_append, hne]
        rw [hfc]
        simp [hmem, List.append_assoc]

/-- C5: every `ParseError` produced or transformed by the library keeps a
duplicate-free reason list: construction, `add_error`, `add_message` and
`merge` all preserve `Nodup`, and adding the same `Message` twice equals
adding it once. -/
theorem error_dedup_spec (pos : SourcePosition) (e : Error) (m : String)
    (pe other : ParseError) :
    (ParseError.new pos e).errors.Nodup ∧
    (pe.errors.Nodup → (pe.add_error e).errors.Nodup) ∧
    (pe.errors.Nodup → (pe.add_message m).errors.Nodup) ∧
    (pe.errors.Nodup → (pe.merge other).errors.Nodup) ∧
    (pe.add_message m).add_message m = pe.add_message m := by
  refine ⟨List.nodup_singleton e, fun h => add_error_nodup h e,
    fun h => add_error_nodup h _, fun h => foldl_add_error_nodup _ h, ?_⟩
  exact add_error_of_mem ((mem_add_error _ _).mpr (Or.inr rfl))

theorem error_dedup_spec_witness :
    (ParseError.new ⟨1, 1⟩ (.unexpected 'a')).errors.Nodup ∧
    ((⟨⟨1, 1⟩, [.message ("dup")]⟩ : ParseError).add_error
      (.unexpected 'a')).errors.Nodup ∧
    ((⟨⟨1, 1⟩, [.message ("dup")]⟩ : ParseError).add_message
      ("dup")).errors.Nodup ∧
    ((⟨⟨1, 1⟩, [.message ("dup")]⟩ : ParseError).merge
      ⟨⟨2, 2⟩, [.message ("dup"), .unexpected 'b']⟩).errors.Nodup ∧
    ((⟨⟨1, 1⟩, [.message ("dup")]⟩ : ParseError).add_message
        ("dup")).add_message ("dup")
      = (⟨⟨1, 1⟩, [.message ("dup")]⟩ : ParseError).add_message ("dup") := by
  have h := error_dedup_spec ⟨1, 1⟩ (.unexpected 'a') ("dup")
    ⟨⟨1, 1⟩, [.message ("dup")]⟩ ⟨⟨2, 2⟩, [.message ("dup"), .unexpected 'b']⟩
  exact ⟨h.1, h.2.1 (by decide), h.2.2.1 (by decide), h.2.2.2.1 (by decide),
    h.2.2.2.2⟩

/-- C1: `or(p, q)` returns the first success; when both alternatives
fail the result is `merge(E1, E2)`, whose position is exactly `E1`'s and
whose reason list is `E1`'s extended with the reasons of `E2` not
already present under structural equality. -/
theorem or_merge_spec {α : Type} (p q : Parser α) (st : State) :
    (∀ r, p st = .ok r → Combine.or p q st = .ok r) ∧
    (∀ e1 r, p st = .error e1 → q st = .ok r →
      Combine.or p q st = .ok r) ∧
    (∀ e1 e2, p st = .error e1 → q st = .error e2 →
      Combine.or p q st = .error (e1.merge e2) ∧
      (e1.merge e2).position = e1.position ∧
      (∀ x, x ∈ (e1.merge e2).errors ↔ x ∈ e1.errors ∨ x ∈ e2.errors) ∧
      (e2.errors.Nodup →
        (e1.merge e2).errors
          = e1.errors ++ e2.errors.filter fun x => decide (¬ x ∈ e1.errors))) := by
  refine ⟨?_, ?_, ?_⟩
  · intro r h; simp [Combine.or, h]
  · intro e1 r h1 h2; simp [Combine.or, h1, h2]
  · intro e1 e2 h1 h2
    refine ⟨by simp [Combine.or, h1, h2], foldl_add_error_position _ _,
      fun x => mem_foldl_add_error _ _, fun hnd => foldl_add_error_eq _ _ hnd⟩

theorem or_merge_spec_witness :
    Combine.or Combine.digit Combine.char ⟨⟨1, 1⟩, ['7']⟩
      = .ok ('7', ⟨⟨1, 2⟩, []⟩) ∧
    Combine.or Combine.digit Combine.char ⟨⟨1, 1⟩, ['a']⟩
      = .ok ('a', ⟨⟨1, 2⟩, []⟩) ∧
    Combine.or Combine.digit (satisfy fun c => c == 'b') ⟨⟨1, 1⟩, ['a']⟩
      = .error ⟨⟨1, 1⟩, [.message ("Expected digit"), .unexpected 'a']⟩ := by
  refine ⟨(or_merge_spec Combine.digit Combine.char ⟨⟨1, 1⟩, ['7']⟩).1
      ('7', ⟨⟨1, 2⟩, []⟩) rfl,
    (or_merge_spec Combine.digit Combine.char ⟨⟨1, 1⟩, ['a']⟩).2.1
      ⟨⟨1, 1⟩, [.message ("Expected digit")]⟩ ('a', ⟨⟨1, 2⟩, []⟩) rfl rfl, ?_⟩
  have h := (or_merge_spec Combine.digit (satisfy fun c => c == 'b')
      ⟨⟨1, 1⟩, ['a']⟩).2.2
    ⟨⟨1, 1⟩, [.message ("Expected digit")]⟩ ⟨⟨1, 1⟩, [.unexpected 'a']⟩ rfl rfl
  rw [h.1]
  rfl

/-- C2: when the next token `t` is available but the predicate rejects
it, `satisfy` fails with `Unexpected(t)` at the position of the incoming
state itself (the pre-consume position); the failure carries no new
state, so the caller's state is untouched. -/
theorem satisfy_fail_spec (pred : Char → Bool) (st : State) (t : Char)
    (rest : List Char) (hin : st.input = t :: rest)
    (hpred : pred t = false) :
    satisfy pred st = .error (ParseError.new st.position (.unexpected t)) := by
  have hu : st.uncons_char = .ok (t, ⟨st.position.update t, rest⟩) := by
    simp [State.uncons_char, State.uncons, hin]
  simp [satisfy, hu, hpred]

theorem satisfy_fail_spec_witness :
    satisfy (fun c => c == 'b') ⟨⟨3, 4⟩, ['a', 'z']⟩
      = .error (ParseError.new ⟨3, 4⟩ (.unexpected 'a')) :=
  satisfy_fail_spec (fun c => c == 'b') ⟨⟨3, 4⟩, ['a', 'z']⟩ 'a' ['z'] rfl rfl

/-- C4 fails as stated on the faithful `i32` model: at the reachable
state with column `2^31 - 1` (i32 max) and one character of input left,
`digit` succeeds and the wrapping `column += 1` makes the position
lexicographically smaller than before. -/
theorem monotone_success_cex :
    runF 1 PSyn.digitP ⟨⟨1, 2147483647⟩, ['5']⟩
      = some (.ok ('5', ⟨⟨1, -2147483648⟩, []⟩)) ∧
    ¬ posLe (⟨1, 2147483647⟩ : SourcePosition) ⟨1, -2147483648⟩ := by
  constructor
  · rfl
  · unfold posLe; dsimp only; omega

/-- C4 (amended): for every parser built from the library's primitives
and combinators and every state whose `i32` position counters are at
least 1 and have room for the remaining input (line + input length and
column + input length both below `2^31`, so no increment overflows
during the run), a successful run moves the position forward in the
lexicographic (line, column) order, with equality only when no token
was consumed. -/
theorem monotone_success {α : Type} (e : PSyn α) (fuel : Nat) (st : State)
    (v : α) (st' : State) (hwf : PosInRange st)
    (h : runF fuel e st = some (.ok (v, st'))) :
    posLe st.position st'.position ∧
      (st'.position = st.position → st'.input = st.input) := by
  obtain ⟨hsuf, hcond⟩ := runF_advances fuel e st v st' h
  obtain ⟨hle, -, hstrict⟩ := hcond hwf
  refine ⟨hle, fun heq => ?_⟩
  have hlen : st'.input.length ≤ st.input.length := hsuf.length_le
  rcases Nat.lt_or_ge st'.input.length st.input.length with hlt | hge
  · exfalso
    have hp := hstrict hlt
    rw [heq] at hp
    unfold posLt at hp
    omega
  · exact hsuf.eq_of_length (by omega)

theorem monotone_success_witness :
    posLe (⟨⟨1, 1⟩, ['7']⟩ : State).position
        (⟨⟨1, 2⟩, []⟩ : State).position ∧
      ((⟨⟨1, 2⟩, []⟩ : State).position = (⟨⟨1, 1⟩, ['7']⟩ : State).position →
        (⟨⟨1, 2⟩, []⟩ : State).input = (⟨⟨1, 1⟩, ['7']⟩ : State).input) :=
  monotone_success .digitP 1 ⟨⟨1, 1⟩, ['7']⟩ '7' ⟨⟨1, 2⟩, []⟩
    (by unfold PosInRange; decide) rfl

/-- C7: `digit` consumes one character and succeeds with it when it is
a decimal digit; otherwise it fails with `Message("Expected digit")` at
the pre-consume position. -/
theorem digit_spec (st : State) (c : Char) (rest : List Char)
    (hin : st.input = c :: rest) :
    (c.isDigit = true →
      digit st = .ok (c, ⟨st.position.update c, rest⟩)) ∧
    (c.isDigit = false →
      digit st
        = .error (ParseError.new st.position (.message ("Expected digit")))) := by
  have hu : st.uncons_char = .ok (c, ⟨st.position.update c, rest⟩) := by
    simp [State.uncons_char, State.uncons, hin]
  constructor
  · intro hd; simp [digit, hu, hd]
  · intro hd; simp [digit, hu, hd]

theorem digit_spec_witness :
    Combine.digit ⟨⟨1, 1⟩, ['5', 'x']⟩ = .ok ('5', ⟨⟨1, 2⟩, ['x']⟩) ∧
    Combine.digit ⟨⟨2, 7⟩, ['x']⟩
      = .error (ParseError.new ⟨2, 7⟩ (.message ("Expected digit"))) :=
  ⟨(digit_spec ⟨⟨1, 1⟩, ['5', 'x']⟩ '5' ['x'] rfl).1 rfl,
   (digit_spec ⟨⟨2, 7⟩, ['x']⟩ 'x' [] rfl).2 rfl⟩

/-- C8: `optional(p)` is a success for every `p` and `S`: `Some(v)` with
the advanced state when `p` succeeds, `None` with the original state
when `p` fails (the error is discarded); it never fails. -/
theorem optional_spec {α : Type} (p : Parser α) (st : State) :
    (∀ v st', p st = .ok (v, st') → optional p st = .ok (some v, st')) ∧
    (∀ e, p st = .error e → optional p st = .ok (none, st)) ∧
    (∀ e, optional p st ≠ .error e) := by
  refine ⟨?_, ?_, ?_⟩
  · intro v st' h; simp [optional, h]
  · intro e h; simp [optional, h]
  · intro e h
    cases hp : p st with
    | ok xr => simp [optional, hp] at h
    | error e1 => simp [optional, hp] at h

theorem optional_spec_witness :
    optional Combine.digit ⟨⟨1, 1⟩, ['5']⟩ = .ok (some '5', ⟨⟨1, 2⟩, []⟩) ∧
    optional Combine.digit ⟨⟨1, 1⟩, ['x']⟩ = .ok (none, ⟨⟨1, 1⟩, ['x']⟩) ∧
    optional Combine.digit ⟨⟨1, 1⟩, ['x']⟩
      ≠ .error (ParseError.new ⟨1, 1⟩ (.message ("Expected digit"))) :=
  ⟨(optional_spec Combine.digit ⟨⟨1, 1⟩, ['5']⟩).1 '5' ⟨⟨1, 2⟩, []⟩ rfl,
   (optional_spec Combine.digit ⟨⟨1, 1⟩, ['x']⟩).2.1
     ⟨⟨1, 1⟩, [.message ("Expected digit")]⟩ rfl,
   (optional_spec Combine.digit ⟨⟨1, 1⟩, ['x']⟩).2.2
     (ParseError.new ⟨1, 1⟩ (.message ("Expected digit")))⟩

/-!  The `ManyAppend` loop: shape, fuel-monotonicity, totality.  -/

/-- The `ManyAppend` loop never returns an error. -/
theorem many_append_no_error {α : Type} (p : Parser α) :
    ∀ (fuel : Nat) (st : State) (acc : List α) (r : ParseResult (List α)),
      many_append p fuel st acc = some r → ∃ xs st', r = .ok (xs, st')
  | 0, st, acc, r, h => by simp [many_append] at h
  | fuel + 1, st, acc, r, h => by
      cases hp : p st with
      | ok xr =>
        obtain ⟨x, rest⟩ := xr
        simp only [many_append, hp] at h
        exact many_append_no_error p fuel rest (acc ++ [x]) r h
      | error e =>
        simp only [many_append, hp, Option.some.injEq] at h
        exact ⟨acc, st, h.symm⟩

/-- Giving the `ManyAppend` loop more fuel cannot change a result it
already reaches. -/
theorem many_append_mono {α : Type} (p : Parser α) :
    ∀ (f1 f2 : Nat), f1 ≤ f2 → ∀ (st : State) (acc : List α)
      (r : ParseResult (List α)),
      many_append p f1 st acc = some r → many_append p f2 st acc = some r
  | 0, _, _, _, _, _, h => by simp [many_append] at h
  | _ + 1, 0, hle, _, _, _, _ => by omega
  | f1 + 1, f2 + 1, hle, st, acc, r, h => by
      cases hp : p st with
      | ok xr =>
        obtain ⟨x, rest⟩ := xr
        simp only [many_append, hp] at h ⊢
        exact many_append_mono p f1 f2 (by omega) rest (acc ++ [x]) r h
      | error e =>
        simp only [many_append, hp] at h ⊢
        exact h

/-- When every success of the body strictly consumes input, input
length plus one is enough fuel for the `ManyAppend` loop, and the loop
returns a success. -/
theorem many_append_total {α : Type} {p : Parser α}
    (hprog : ∀ st x st', p st = .ok (x, st') →
      st'.input.length < st.input.length) :
    ∀ (n : Nat) (st : State), st.input.length ≤ n → ∀ acc,
      ∃ res st', many_append p (n + 1) st acc = some (.ok (res, st')) := by
  intro n
  induction n with
  | zero =>
    intro st hle acc
    cases hp : p st with
    | error e => exact ⟨acc, st, by simp [many_append, hp]⟩
    | ok xr =>
      obtain ⟨x, rest⟩ := xr
      have := hprog st x rest hp
      omega
  | succ n ihn =>
    intro st hle acc
    cases hp : p st with
    | error e => exact ⟨acc, st, by simp [many_append, hp]⟩
    | ok xr =>
      obtain ⟨x, rest⟩ := xr
      have hlt := hprog st x rest hp
      obtain ⟨res, st', hr⟩ := ihn rest (by omega) (acc ++ [x])
      exact ⟨res, st', by simp only [many_append, hp]; exact hr⟩

/-- When the body succeeds without changing the state, the `ManyAppend`
loop never terminates: no amount of fuel reaches a result. -/
theorem many_append_fix {α : Type} {p : Parser α} {st : State} {x : α}
    (hp : p st = .ok (x, st)) :
    ∀ (fuel : Nat) (acc : List α), many_append p fuel st acc = none := by
  intro fuel
  induction fuel with
  | zero => intro acc; simp [many_append]
  | succ fuel ih =>
    intro acc
    simp only [many_append, hp]
    exact ih (acc ++ [x])

/-- Successful `digit` strictly consumes input. -/
theorem digit_progress :
    ∀ (st : State) (x : Char) (st' : State), digit st = .ok (x, st') →
      st'.input.length < st.input.length := by
  intro st x st' h
  obtain ⟨hin, -⟩ := uncons_char_ok (digit_ok h)
  rw [hin]; simp

/-- C9: under the precondition that every success of `p` strictly
advances the state, the repetition loop shared by `many`, `many1` and
`sep_by` is total — fuel `input length + 1` always yields a success,
both for the raw loop and for `many` — while a `p` that succeeds
without advancing the state makes the loop run forever (no fuel ever
yields a result). -/
theorem many_termination {α : Type} (p : Parser α) :
    ((∀ st x st', p st = .ok (x, st') →
        st'.input.length < st.input.length) →
      ∀ st acc, ∃ res st',
        many_append p (st.input.length + 1) st acc
          = some (.ok (res, st'))) ∧
    ((∀ st x st', p st = .ok (x, st') →
        st'.input.length < st.input.length) →
      ∀ st, ∃ res st',
        many p (st.input.length + 1) st = some (.ok (res, st'))) ∧
    (∀ st x acc, p st = .ok (x, st) → ∀ fuel,
      many_append p fuel st acc = none) := by
  refine ⟨?_, ?_, ?_⟩
  · intro hprog st acc
    exact many_append_total hprog st.input.length st (Nat.le_refl _) acc
  · intro hprog st
    obtain ⟨res, st', hr⟩ :=
      many_append_total hprog st.input.length st (Nat.le_refl _) []
    exact ⟨res, st', by simp [many, hr]⟩
  · intro st x acc hp fuel
    exact many_append_fix hp fuel acc

theorem many_termination_witness :
    (∃ res st', many_append Combine.digit 2 ⟨⟨1, 1⟩, ['5']⟩ []
      = some (.ok (res, st'))) ∧
    (∃ res st', many Combine.digit 2 ⟨⟨1, 1⟩, ['5']⟩
      = some (.ok (res, st'))) ∧
    many_append (fun st => Except.ok ((), st)) 7 ⟨⟨1, 1⟩, []⟩ [] = none :=
  ⟨(many_termination Combine.digit).1 digit_progress ⟨⟨1, 1⟩, ['5']⟩ [],
   (many_termination Combine.digit).2.1 digit_progress ⟨⟨1, 1⟩, ['5']⟩,
   (many_termination (fun st => Except.ok ((), st))).2.2
     ⟨⟨1, 1⟩, []⟩ () [] rfl 7⟩

/-- C3: `sep_by(p, sep)` succeeds with the empty list and the original
state when the first `p` fails; any returned result is a success; and a
consumed separator followed by a failing `p` makes the loop step return
the accumulated results at the state reached before that separator (a
trailing separator is never consumed), because the composed
`sep.with(p)` is attempted atomically against the pre-attempt state. -/
theorem sep_by_spec {α β : Type} (p : Parser α) (sep : Parser β)
    (fuel : Nat) (st : State) :
    (∀ e, p st = .error e → sep_by p sep fuel st = some (.ok ([], st))) ∧
    (∀ r, sep_by p sep fuel st = some r → ∃ xs st', r = .ok (xs, st')) ∧
    (∀ (st1 : State) (acc : List α) b (st2 : State) e2,
      sep st1 = .ok (b, st2) → p st2 = .error e2 →
      many_append (withP sep p) (fuel + 1) st1 acc
        = some (.ok (acc, st1))) := by
  refine ⟨?_, ?_, ?_⟩
  · intro e he; simp [sep_by, he]
  · intro r hr
    cases hp : p st with
    | error e =>
      simp only [sep_by, hp, Option.some.injEq] at hr
      exact ⟨[], st, hr.symm⟩
    | ok xr =>
      obtain ⟨x, rest⟩ := xr
      simp only [sep_by, hp] at hr
      cases hm : many_append (withP sep p) fuel rest [x] with
      | none => simp [hm] at hr
      | some r2 =>
        obtain ⟨xs, st', rfl⟩ :=
          many_append_no_error (withP sep p) fuel rest [x] r2 hm
        simp only [hm, Option.some.injEq] at hr
        exact ⟨xs, st', hr.symm⟩
  · intro st1 acc b st2 e2 hsep hp
    have hw : withP sep p st1 = .error e2 := by
      simp [withP, Combine.and, hsep, hp]
    simp [many_append, hw]

theorem sep_by_spec_witness :
    sep_by Combine.digit (satisfy fun c => c == ',') 5 ⟨⟨1, 1⟩, ['x']⟩
      = some (.ok ([], ⟨⟨1, 1⟩, ['x']⟩)) ∧
    many_append (withP (satisfy fun c => c == ',') Combine.digit) 5
        ⟨⟨1, 6⟩, [',', 'x']⟩ ['1', '2']
      = some (.ok (['1', '2'], ⟨⟨1, 6⟩, [',', 'x']⟩)) :=
  ⟨(sep_by_spec Combine.digit (satisfy fun c => c == ',') 5
      ⟨⟨1, 1⟩, ['x']⟩).1 ⟨⟨1, 1⟩, [.message ("Expected digit")]⟩ rfl,
   (sep_by_spec Combine.digit (satisfy fun c => c == ',') 4
      ⟨⟨1, 1⟩, ['x']⟩).2.2 ⟨⟨1, 6⟩, [',', 'x']⟩ ['1', '2'] ','
      ⟨⟨1, 7⟩, ['x']⟩ ⟨⟨1, 7⟩, [.message ("Expected digit")]⟩ rfl rfl⟩

/-- Position reached after consuming the given characters in order. -/
def advancePos (p : SourcePosition) (cs : List Char) : SourcePosition :=
  cs.foldl SourcePosition.update p

/-- When the pattern characters are a prefix of the input, the `StringP`
loop consumes exactly them. -/
theorem stringLoop_run {s : String} :
    ∀ (cs : List Char) (st : State), cs.IsPrefix st.input →
      stringLoop s cs st
        = .ok ⟨advancePos st.position cs, st.input.drop cs.length⟩
  | [], st, _ => by simp [stringLoop, advancePos]
  | c :: cs, st, hpre => by
      obtain ⟨t, ht⟩ := hpre
      have hin : st.input = c :: (cs ++ t) := by rw [← ht]; simp
      have hu : st.uncons_char
          = .ok (c, ⟨st.position.update c, cs ++ t⟩) := by
        simp [State.uncons_char, State.uncons, hin]
      simp only [stringLoop, hu]
      rw [if_neg (by simp)]
      rw [stringLoop_run cs ⟨st.position.update c, cs ++ t⟩ ⟨t, rfl⟩]
      simp [advancePos, hin, List.drop_left]

/-- C6: `string(s)` consumes the characters of `s` in order; on the
first mismatching character it fails with `Expected(s)` at the position
before consuming that character; when the input is exhausted mid-match
it propagates `Message("End of input")` at the position reached; and
when the whole of `s` matches it succeeds, consuming exactly `s`'s
characters. -/
theorem string_spec (s : String) :
    (∀ c cs (st1 : State), st1.input = [] →
      stringLoop s (c :: cs) st1
        = .error (ParseError.new st1.position (.message ("End of input")))) ∧
    (∀ c cs d rest (st1 : State), st1.input = d :: rest → c ≠ d →
      stringLoop s (c :: cs) st1
        = .error (ParseError.new st1.position (.expected s))) ∧
    (∀ st : State, s.data.IsPrefix st.input →
      string s st
        = .ok (s, ⟨advancePos st.position s.data,
            st.input.drop s.data.length⟩)) := by
  refine ⟨?_, ?_, ?_⟩
  · intro c cs st1 h
    have hu : st1.uncons_char
        = .error (ParseError.new st1.position (.message ("End of input"))) := by
      simp [State.uncons_char, State.uncons, h]
    simp [stringLoop, hu]
  · intro c cs d rest st1 h hne
    have hu : st1.uncons_char
        = .ok (d, ⟨st1.position.update d, rest⟩) := by
      simp [State.uncons_char, State.uncons, h]
    simp [stringLoop, hu, hne]
  · intro st hpre
    simp [string, stringLoop_run s.data st hpre]

theorem string_spec_witness :
    stringLoop ("ab") ['a', 'b'] ⟨⟨2, 5⟩, []⟩
      = .error (ParseError.new ⟨2, 5⟩ (.message ("End of input"))) ∧
    stringLoop ("ab") ['a', 'b'] ⟨⟨2, 5⟩, ['x', 'q']⟩
      = .error (ParseError.new ⟨2, 5⟩ (.expected ("ab"))) ∧
    Combine.string ("ab") ⟨⟨1, 1⟩, ['a', 'b', 'c']⟩
      = .ok ("ab", ⟨⟨1, 3⟩, ['c']⟩) :=
  ⟨(string_spec ("ab")).1 'a' ['b'] ⟨⟨2, 5⟩, []⟩ rfl,
   (string_spec ("ab")).2.1 'a' ['b'] 'x' ['q'] ⟨⟨2, 5⟩, ['x', 'q']⟩ rfl
     (by decide),
   (string_spec ("ab")).2.2 ⟨⟨1, 1⟩, ['a', 'b', 'c']⟩ ⟨['c'], rfl⟩⟩

/-- C10: a successful `string(s)` returns the literal `s` itself as its
value, and `string("")` succeeds on every state — including an
exhausted one — consuming nothing and leaving the state unchanged. -/
theorem string_value_spec (s : String) (st : State) :
    (∀ r, string s st = .ok r → r.1 = s) ∧
    string ("") st = .ok ("", st) := by
  constructor
  · intro r h
    cases hl : stringLoop s s.data st with
    | error e => simp [string, hl] at h
    | ok rest =>
      simp only [string, hl, Except.ok.injEq] at h
      rw [← h]
  · rfl

theorem string_value_spec_witness :
    (("a", (⟨⟨1, 2⟩, []⟩ : State)).1 = ("a" : String)) ∧
    Combine.string ("") ⟨⟨4, 2⟩, []⟩ = .ok ("", ⟨⟨4, 2⟩, []⟩) :=
  ⟨(string_value_spec ("a") ⟨⟨1, 1⟩, ['a']⟩).1 ("a", ⟨⟨1, 2⟩, []⟩) rfl,
   (string_value_spec ("a") ⟨⟨4, 2⟩, []⟩).2⟩

end Combine
